import Mathlib

/-!
Verification of the `tidypath.py` path-tidying tool.

The program reads a path-list environment variable, splits it on the
platform path-list separator (`:` on POSIX, which is what we model),
canonicalizes each component (`os.path.abspath(os.path.expanduser(comp))`),
deduplicates by canonical key with first-occurrence-wins semantics,
optionally drops components that do not exist on disk, and renders the
result either as a joined shell string, a numbered human-readable list,
or an annotated report with counters.

The embedding below mirrors the source functions: `get_canon`, `is_dup`,
`existsP` (the source's `exists`), the report loop, and `process`.
Filesystem state (current working directory, home directory, `~user`
lookups, and which canonical paths exist) is passed explicitly through
the `Fs` structure; the mutable duplicate dictionary becomes an
explicitly threaded list of canonical keys (Python dicts preserve
insertion order, so a list models the key set faithfully).
-/

namespace TidyPath

/-- Split a character list on every occurrence of `sep`, keeping empty
pieces, exactly like Python's `str.split` with a one-character separator:
the empty input yields one empty piece. -/
def splitChars (sep : Char) : List Char → List (List Char)
  | [] => [[]]
  | c :: rest =>
    if c = sep then [] :: splitChars sep rest
    else
      match splitChars sep rest with
      | [] => [[c]]
      | h :: t => (c :: h) :: t

/-- Join character lists with `sep` between consecutive pieces, exactly
like Python's `sep.join`. -/
def joinChars (sep : Char) : List (List Char) → List Char
  | [] => []
  | [x] => x
  | x :: y :: rest => x ++ sep :: joinChars sep (y :: rest)

/-- Strip trailing `/` characters, like Python's `str.rstrip('/')`. -/
def rstripSlash (l : List Char) : List Char :=
  (l.reverse.dropWhile (fun c => c = '/')).reverse

/-- Number of leading slashes that `posixpath.normpath` preserves:
one slash normally, two when the path starts with exactly two. -/
def initialSlashes (l : List Char) : Nat :=
  match l with
  | [] => 0
  | [c1] => if c1 = '/' then 1 else 0
  | [c1, c2] => if c1 = '/' then (if c2 = '/' then 2 else 1) else 0
  | c1 :: c2 :: c3 :: _ =>
    if c1 = '/' then (if c2 = '/' then (if c3 = '/' then 1 else 2) else 1) else 0

/-- The component-processing loop of `posixpath.normpath`: drop empty and
`.` pieces, and let `..` cancel a preceding real component. -/
def normComps (ns : Nat) : List (List Char) → List (List Char) → List (List Char)
  | acc, [] => acc
  | acc, comp :: rest =>
    if comp = [] ∨ comp = ['.'] then normComps ns acc rest
    else if comp ≠ ['.', '.'] ∨ (ns = 0 ∧ acc = []) ∨
        (acc ≠ [] ∧ acc.getLast? = some ['.', '.']) then
      normComps ns (acc ++ [comp]) rest
    else normComps ns acc.dropLast rest

/-- `posixpath.normpath` on a character list. -/
def normpathL (l : List Char) : List Char :=
  if l = [] then ['.']
  else
    let ns := initialSlashes l
    let comps := normComps ns [] (splitChars '/' l)
    let joined := List.replicate ns '/' ++ joinChars '/' comps
    if joined = [] then ['.'] else joined

/-- `posixpath.normpath` on strings. -/
def normpath (p : String) : String := String.mk (normpathL p.toList)

/-- `posixpath.join` restricted to two arguments, as used by `abspath`. -/
def joinL (a b : List Char) : List Char :=
  match b with
  | '/' :: _ => b
  | _ =>
    match a.getLast? with
    | none => b
    | some c => if c = '/' then a ++ b else a ++ '/' :: b

/-- The ambient state the program consults: current working directory,
the invoking user's home directory, home-directory lookup for `~user`
forms, and which canonical paths exist on disk (`os.path.exists`). -/
structure Fs where
  cwd : String
  home : String
  userHome : List Char → Option (List Char)
  existsAt : String → Bool

/-- `posixpath.expanduser`: expand a leading `~` or `~user`; an unknown
user name leaves the path unchanged. -/
def expanduserL (fs : Fs) (l : List Char) : List Char :=
  match l with
  | '~' :: rest =>
    let name := rest.takeWhile (fun c => c ≠ '/')
    let tail := rest.dropWhile (fun c => c ≠ '/')
    let uh? := if name = [] then some fs.home.toList else fs.userHome name
    match uh? with
    | none => l
    | some uh =>
      let r := rstripSlash uh ++ tail
      if r = [] then ['/'] else r
  | _ => l

/-- `posixpath.abspath`: join a relative path onto the current working
directory, then normalize. -/
def abspath (cwd : String) (p : String) : String :=
  let l := p.toList
  let j :=
    match l with
    | '/' :: _ => l
    | _ => joinL cwd.toList l
  String.mk (normpathL j)

/-- Source `get_canon`: the canonical path name used as deduplication key. -/
def get_canon (fs : Fs) (comp : String) : String :=
  abspath fs.cwd (String.mk (expanduserL fs comp.toList))

/-- Source `is_dup`: query the canonical key against the seen set and
record it; returns the duplicate verdict together with the updated set. -/
def is_dup (fs : Fs) (dups : List String) (comp : String) : Bool × List String :=
  let canon := get_canon fs comp
  if canon ∈ dups then (true, dups)
  else (false, dups ++ [canon])

/-- Source `exists`: existence on disk of the canonical form. -/
def existsP (fs : Fs) (comp : String) : Bool :=
  fs.existsAt (get_canon fs comp)

/-- The POSIX path-list separator `os.pathsep`. -/
def pathsep : Char := ':'

/-- Python's `value.split(os.pathsep)` producing the component strings. -/
def splitPath (s : String) : List String :=
  (splitChars pathsep s.toList).map String.mk

/-- Python's `os.pathsep.join(new_comps)`. -/
def joinPath (comps : List String) : String :=
  String.mk (joinChars pathsep (comps.map String.toList))

/-- The filtering loop of `process` (default shell-output mode): call
`is_dup` on every component in order (threading the seen set through all
of them), skip duplicates, skip non-existing components when the
`undefined` flag is on, and keep the rest in order. -/
def processLoop (fs : Fs) (und : Bool) : List String → List String → List String
  | _, [] => []
  | dups, comp :: rest =>
    let pr := is_dup fs dups comp
    if pr.1 then processLoop fs und pr.2 rest
    else if und && !(existsP fs comp) then processLoop fs und pr.2 rest
    else comp :: processLoop fs und pr.2 rest

/-- The `new_comps` list built by `process` from a fresh seen set. -/
def new_comps (fs : Fs) (und : Bool) (comps : List String) : List String :=
  processLoop fs und [] comps

/-- The string printed in default shell-output mode for a given raw
variable value (the newline added by `print` is left to the caller). -/
def tidyOut (fs : Fs) (und : Bool) (value : String) : String :=
  joinPath (new_comps fs und (splitPath value))

/-- The command-line flags of the tool that affect processing. -/
structure Opts where
  color : Bool
  list : Bool
  list_report : Bool
  silent : Bool
  undefined : Bool

/-- The four counters accumulated by `report`, in source order. -/
structure Counts where
  numu : Nat
  numd : Nat
  numf : Nat
  numk : Nat
deriving DecidableEq

/-- The ANSI color fragments chosen at the top of `report`. -/
structure Colors where
  crb : String
  cgb : String
  crs : String
  cuc : String

/-- Color setup of `report`: real escape codes with `-c`, empty strings
otherwise; the marker color for missing entries depends on `-u`. -/
def mkColors (opts : Opts) : Colors :=
  if opts.color then
    { crb := "\x1b[31;1m", cgb := "\x1b[32;1m", crs := "\x1b[0m",
      cuc := if opts.undefined then "\x1b[31;1m" else "\x1b[32;1m" }
  else { crb := "", cgb := "", crs := "", cuc := "" }

/-- Python `'{:>4}'.format`-style right alignment with spaces. -/
def padLeft (w : Nat) (s : String) : String :=
  String.mk (List.replicate (w - s.length) ' ') ++ s

/-- The per-entry loop of `report`: emits one annotated line per
component and accumulates the four counters; `kept` is set when the
entry is not a duplicate or when it exists, and counted once. -/
def reportEntries (fs : Fs) (opts : Opts) (col : Colors) :
    Nat → List String → Counts → List String → String × Counts
  | _, _, c, [] => ("", c)
  | i, d, c, comp :: rest =>
    let pr := is_dup fs d comp
    let s1 := padLeft 4 (Nat.repr i)
    let s2 := if pr.1 then " " ++ col.crb ++ "d" ++ col.crs
              else " " ++ col.cgb ++ "u" ++ col.crs
    let c1 := if pr.1 then { c with numd := c.numd + 1, numf := c.numf + 1 } else c
    let kept1 := !pr.1
    let e := existsP fs comp
    let s3 := if e then col.cgb ++ "e" ++ col.crs else col.cuc ++ "n" ++ col.crs
    let c2 := if e then c1
              else { c1 with numu := c1.numu + 1,
                             numf := c1.numf + (if opts.undefined then 1 else 0) }
    let kept := kept1 || e
    let c3 := if kept then { c2 with numk := c2.numk + 1 } else c2
    let tl := reportEntries fs opts col (i + 1) pr.2 c3 rest
    (s1 ++ s2 ++ s3 ++ " " ++ comp ++ "\n" ++ tl.1, tl.2)

/-- The legend and summary block printed at the end of `report`. -/
def summaryText (col : Colors) (c : Counts) : String :=
  "\nKey:\n     "
  ++ col.cgb ++ "u" ++ col.crs ++ col.cgb ++ "e   " ++ col.cgb ++ "u" ++ col.crs
  ++ "nique, " ++ col.cgb ++ "e" ++ col.crs ++ "xists\n     "
  ++ col.crb ++ "d" ++ col.crs ++ col.cgb ++ "e   " ++ col.crb ++ "d" ++ col.crs
  ++ "uplicate, " ++ col.cgb ++ "e" ++ col.crs ++ "xists\n     "
  ++ col.cgb ++ "u" ++ col.crs ++ col.cuc ++ "n   " ++ col.cgb ++ "u" ++ col.crs
  ++ "nique, does " ++ col.cuc ++ "n" ++ col.crs ++ "ot exist\n     "
  ++ col.crb ++ "d" ++ col.crs ++ col.cuc ++ "n   " ++ col.crb ++ "d" ++ col.crs
  ++ "uplicate, does " ++ col.cuc ++ "n" ++ col.crs
  ++ "ot exist\n\nSummary:\n    Num Kept       : " ++ padLeft 2 (Nat.repr c.numk)
  ++ "\n    Num Filtered   : " ++ padLeft 2 (Nat.repr c.numf)
  ++ "\n    Num Duplicates : " ++ padLeft 2 (Nat.repr c.numd)
  ++ "\n    Num Undefined  : " ++ padLeft 2 (Nat.repr c.numu) ++ "\n"

/-- Everything `report` writes to standard output. -/
def reportOut (fs : Fs) (opts : Opts) (env : String) (comps : List String) : String :=
  let col := mkColors opts
  let res := reportEntries fs opts col 1 [] ⟨0, 0, 0, 0⟩ comps
  "Name: " ++ env ++ "\n" ++ res.1 ++ summaryText col res.2

/-- The counters `report` ends with on a given component list. -/
def reportCountsOf (fs : Fs) (opts : Opts) (comps : List String) : Counts :=
  (reportEntries fs opts (mkColors opts) 1 [] ⟨0, 0, 0, 0⟩ comps).2

/-- The numbered listing of human-list mode (`-l`), over the original
unfiltered components. -/
def numberedLines : Nat → List String → String
  | _, [] => ""
  | i, c :: rest => padLeft 2 (Nat.repr i) ++ " " ++ c ++ "\n" ++ numberedLines (i + 1) rest

/-- The formatted message `err` writes to standard error before exiting;
`lineno` stands for the caller's line number taken from the stack. -/
def errText (lineno : Nat) (msg : String) : String :=
  "\x1b[31;1m" ++ "ERROR:" ++ Nat.repr lineno ++ ":" ++ "\x1b[0;31m" ++ " "
  ++ msg ++ "\x1b[0m" ++ "\n"

/-- Result of processing one variable: either `err` fired (message to
standard error plus a process exit code) or some text reached stdout. -/
inductive Outcome where
  | fatal (stderrText : String) (exitCode : Nat)
  | out (stdout : String)
deriving DecidableEq

/-- The renderer dispatch at the bottom of `process`: report mode wins,
then human-list mode (which prints the original components), otherwise
the joined filtered components (with the newline `print` appends). -/
def renderComps (fs : Fs) (opts : Opts) (env : String) (comps : List String) : Outcome :=
  if opts.list_report then Outcome.out (reportOut fs opts env comps)
  else
    let nc := new_comps fs opts.undefined comps
    if opts.list then Outcome.out (numberedLines 1 comps)
    else Outcome.out (joinPath nc ++ "\n")

/-- Source `process` for one variable name: a missing variable is fatal
unless `-s` was given, in which case it is treated as an empty component
list; a present value is split on the path separator. -/
def processVar (fs : Fs) (opts : Opts) (env : String) (lookup : Option String) : Outcome :=
  match lookup with
  | none =>
    if opts.silent = false then
      Outcome.fatal
        (errText 165 ("environment variable not defined: " ++ env ++ ", use -s to continue")) 1
    else renderComps fs opts env []
  | some v => renderComps fs opts env (splitPath v)

/-- Aggregate outcome of `main` over the argument variable names. -/
structure RunResult where
  stdout : String
  stderrText : Option String
  exitCode : Nat
deriving DecidableEq

/-- Source `main`: process the names in order; `sys.exit` inside `err`
aborts the whole invocation, so nothing after a fatal name runs. -/
def runMain (fs : Fs) (opts : Opts) (env : String → Option String) : List String → RunResult
  | [] => ⟨"", none, 0⟩
  | name :: rest =>
    match processVar fs opts name (env name) with
    | Outcome.fatal msg code => ⟨"", some msg, code⟩
    | Outcome.out s =>
      let r := runMain fs opts env rest
      ⟨s ++ r.stdout, r.stderrText, r.exitCode⟩

/-- Spec-side filter (stated from the spec's words, to be compared with
`processLoop`): keep a component when its canonical key does not occur
among the canonical keys of the components before it, and, when the
`undefined` flag is on, when it exists on disk; `prior` accumulates all
earlier components of the traversal. -/
def specFilter (fs : Fs) (und : Bool) : List String → List String → List String
  | _, [] => []
  | prior, c :: rest =>
    if get_canon fs c ∈ prior.map (get_canon fs) then specFilter fs und (prior ++ [c]) rest
    else if und && !(existsP fs c) then specFilter fs und (prior ++ [c]) rest
    else c :: specFilter fs und (prior ++ [c]) rest

/-- Per-entry classification sequence of the report loop: for each
component in order, its duplicate verdict at visit time and its
existence on disk. -/
def classifyL (fs : Fs) : List String → List String → List (Bool × Bool)
  | _, [] => []
  | d, comp :: rest =>
    ((is_dup fs d comp).1, existsP fs comp) :: classifyL fs (is_dup fs d comp).2 rest

/-- The sequence of duplicate verdicts produced by the `is_dup` calls of
one traversal starting from seen set `d`. -/
def dupFlagsL (fs : Fs) : List String → List String → List Bool
  | _, [] => []
  | d, comp :: rest => (is_dup fs d comp).1 :: dupFlagsL fs (is_dup fs d comp).2 rest

/-- Seen-set state after a traversal feeds every component to `is_dup`. -/
def dupsAfter (fs : Fs) : List String → List String → List String
  | d, [] => d
  | d, comp :: rest => dupsAfter fs (is_dup fs d comp).2 rest

/-- A sample state: cwd `/w`, home `/h`, no `~user` entries, nothing
exists on disk. -/
def fsNone : Fs :=
  { cwd := "/w", home := "/h", userHome := fun _ => none, existsAt := fun _ => false }

/-- A sample state like `fsNone` except that every path exists. -/
def fsAll : Fs :=
  { cwd := "/w", home := "/h", userHome := fun _ => none, existsAt := fun _ => true }

/-- A sample state where only `/usr/bin` exists. -/
def fsUsrBin : Fs :=
  { cwd := "/w", home := "/h", userHome := fun _ => none,
    existsAt := fun p => p = "/usr/bin" }

/-- All flags off: default shell-output mode. -/
def optsDefault : Opts :=
  { color := false, list := false, list_report := false, silent := false, undefined := false }

/-- Report mode with the exclude-undefined flag (`-L -u`). -/
def optsLu : Opts :=
  { color := false, list := false, list_report := true, silent := false, undefined := true }

/-- Report mode without the exclude-undefined flag (`-L`). -/
def optsL : Opts :=
  { color := false, list := false, list_report := true, silent := false, undefined := false }

/-- Report mode with silent mode (`-L -s`). -/
def optsLs : Opts :=
  { color := false, list := false, list_report := true, silent := true, undefined := false }

example : tidyOut fsUsrBin false "/usr/bin:/usr/bin:/nonexistent" = "/usr/bin:/nonexistent" := by decide
example : tidyOut fsUsrBin true "/usr/bin:/usr/bin:/nonexistent" = "/usr/bin" := by decide
example : reportCountsOf fsNone optsL ["/a", "/a"] = ⟨2, 1, 1, 1⟩ := by decide
example : reportCountsOf fsNone optsLu ["/a", "/a"] = ⟨2, 1, 3, 1⟩ := by decide
example : get_canon fsNone "" = "/w" := by decide
example : get_canon fsNone "~" = "/h" := by decide
example : get_canon fsNone "~/bin" = "/h/bin" := by decide
example : get_canon fsNone "x/./y/.." = "/w/x" := by decide
example : splitPath "" = [""] := by decide
example : numberedLines 1 ["/a", "/b"] = " 1 /a\n 2 /b\n" := by decide

example : normpathL ("/w/".toList) = "/w".toList := by decide
example : normpathL ("a/..".toList) = ".".toList := by decide
example : normpathL ("//x".toList) = "//x".toList := by decide
example : normpathL ("".toList) = ".".toList := by decide
example : splitChars ':' "".toList = [[]] := by decide
example : splitChars ':' "a:b".toList = ["a".toList, "b".toList] := by decide

lemma is_dup_mem (fs : Fs) (d : List String) (comp : String)
    (h : get_canon fs comp ∈ d) : is_dup fs d comp = (true, d) := by
  simp [is_dup, h]

lemma is_dup_not_mem (fs : Fs) (d : List String) (comp : String)
    (h : get_canon fs comp ∉ d) :
    is_dup fs d comp = (false, d ++ [get_canon fs comp]) := by
  simp [is_dup, h]

lemma processLoop_sublist (fs : Fs) (und : Bool) :
    ∀ (comps d : List String), List.Sublist (processLoop fs und d comps) comps := by
  intro comps
  induction comps with
  | nil => intro d; simp [processLoop]
  | cons comp rest ih =>
    intro d
    by_cases h : get_canon fs comp ∈ d
    · simp only [processLoop, is_dup_mem fs d comp h]
      exact (ih d).cons comp
    · simp only [processLoop, is_dup_not_mem fs d comp h]
      by_cases hb : und && !(existsP fs comp)
      · simp only [hb, if_true, if_false, Bool.false_eq_true]
        exact (ih _).cons comp
      · simp only [hb, if_false, Bool.false_eq_true]
        exact (ih _).cons₂ comp

lemma processLoop_eq_specFilter (fs : Fs) (und : Bool) :
    ∀ (comps d prior : List String),
      (∀ k, k ∈ d ↔ k ∈ prior.map (get_canon fs)) →
      processLoop fs und d comps = specFilter fs und prior comps := by
  intro comps
  induction comps with
  | nil => intro d prior _; simp [processLoop, specFilter]
  | cons comp rest ih =>
    intro d prior hinv
    have hnext : ∀ k, k ∈ d ∨ k = get_canon fs comp ↔
        k ∈ (prior ++ [comp]).map (get_canon fs) := by
      intro k
      simp only [List.map_append, List.mem_append, List.map_cons, List.map_nil,
        List.mem_singleton, ← hinv k]
    by_cases h : get_canon fs comp ∈ d
    · have hp : get_canon fs comp ∈ prior.map (get_canon fs) := (hinv _).mp h
      simp only [processLoop, specFilter, is_dup_mem fs d comp h, if_pos hp]
      exact ih d (prior ++ [comp]) (by
        intro k
        rw [← hnext k]
        constructor
        · exact fun hk => Or.inl hk
        · rintro (hk | hk)
          · exact hk
          · rw [hk]; exact h)
    · have hp : get_canon fs comp ∉ prior.map (get_canon fs) := fun hc => h ((hinv _).mpr hc)
      have hd' : ∀ k, k ∈ d ++ [get_canon fs comp] ↔ k ∈ (prior ++ [comp]).map (get_canon fs) := by
        intro k
        rw [← hnext k]
        simp [List.mem_append]
      simp only [processLoop, specFilter, is_dup_not_mem fs d comp h, if_neg hp]
      by_cases hb : und && !(existsP fs comp)
      · simp only [hb, if_true, if_false, Bool.false_eq_true]
        exact ih _ _ hd'
      · simp only [hb, if_false, Bool.false_eq_true]
        exact congrArg (comp :: ·) (ih _ _ hd')

lemma new_comps_eq_specFilter (fs : Fs) (und : Bool) (comps : List String) :
    new_comps fs und comps = specFilter fs und [] comps :=
  processLoop_eq_specFilter fs und comps [] [] (by simp)

lemma processLoop_cons_dup (fs : Fs) (und : Bool) (d rest : List String) (comp : String)
    (h : get_canon fs comp ∈ d) :
    processLoop fs und d (comp :: rest) = processLoop fs und d rest := by
  simp [processLoop, is_dup_mem fs d comp h]

lemma processLoop_cons_drop (fs : Fs) (und : Bool) (d rest : List String) (comp : String)
    (h : get_canon fs comp ∉ d) (hb : (und && !(existsP fs comp)) = true) :
    processLoop fs und d (comp :: rest) =
      processLoop fs und (d ++ [get_canon fs comp]) rest := by
  simp [processLoop, is_dup_not_mem fs d comp h, hb]

lemma processLoop_cons_keep (fs : Fs) (und : Bool) (d rest : List String) (comp : String)
    (h : get_canon fs comp ∉ d) (hb : (und && !(existsP fs comp)) = false) :
    processLoop fs und d (comp :: rest) =
      comp :: processLoop fs und (d ++ [get_canon fs comp]) rest := by
  simp [processLoop, is_dup_not_mem fs d comp h, hb]

lemma processLoop_canon_nodup (fs : Fs) (und : Bool) :
    ∀ (comps d : List String),
      (∀ k, k ∈ (processLoop fs und d comps).map (get_canon fs) → k ∉ d) ∧
      ((processLoop fs und d comps).map (get_canon fs)).Nodup := by
  intro comps
  induction comps with
  | nil => intro d; simp [processLoop]
  | cons comp rest ih =>
    intro d
    by_cases h : get_canon fs comp ∈ d
    · simpa only [processLoop, is_dup_mem fs d comp h] using ih d
    · simp only [processLoop, is_dup_not_mem fs d comp h]
      by_cases hb : und && !(existsP fs comp)
      · simp only [hb, if_true, if_false, Bool.false_eq_true]
        obtain ⟨hdisj, hnd⟩ := ih (d ++ [get_canon fs comp])
        refine ⟨fun k hk hkd => hdisj k hk ?_, hnd⟩
        simp [List.mem_append, hkd]
      · simp only [hb, if_false, Bool.false_eq_true, List.map_cons, List.nodup_cons]
        obtain ⟨hdisj, hnd⟩ := ih (d ++ [get_canon fs comp])
        refine ⟨fun k hk hkd => ?_, fun hc => ?_, hnd⟩
        · rcases List.mem_cons.mp hk with hk0 | hk1
          · rw [hk0] at hkd; exact h hkd
          · exact hdisj k hk1 (by simp [List.mem_append, hkd])
        · exact hdisj _ hc (by simp [List.mem_append])

lemma processLoop_kept_exists (fs : Fs) (und : Bool) :
    ∀ (comps d : List String) (c : String),
      c ∈ processLoop fs und d comps → und = true → existsP fs c = true := by
  intro comps
  induction comps with
  | nil => intro d c hc; simp [processLoop] at hc
  | cons comp rest ih =>
    intro d c hc hu
    by_cases h : get_canon fs comp ∈ d
    · rw [processLoop, is_dup_mem fs d comp h] at hc
      exact ih d c hc hu
    · rw [processLoop, is_dup_not_mem fs d comp h] at hc
      by_cases hb : und && !(existsP fs comp)
      · simp only [hb, if_true, if_false, Bool.false_eq_true] at hc
        exact ih _ c hc hu
      · simp only [hb, if_false, Bool.false_eq_true] at hc
        rcases List.mem_cons.mp hc with hc0 | hc1
        · subst hc0
          rw [hu] at hb
          simpa using hb
        · exact ih _ c hc1 hu

lemma processLoop_id (fs : Fs) (und : Bool) :
    ∀ (comps d : List String),
      (∀ k, k ∈ comps.map (get_canon fs) → k ∉ d) →
      (comps.map (get_canon fs)).Nodup →
      (∀ c, c ∈ comps → und = true → existsP fs c = true) →
      processLoop fs und d comps = comps := by
  intro comps
  induction comps with
  | nil => intro d _ _ _; simp [processLoop]
  | cons comp rest ih =>
    intro d hdisj hnd hex
    have h : get_canon fs comp ∉ d := hdisj _ (by simp)
    have hb : (und && !(existsP fs comp)) = false := by
      cases hu : und
      · simp
      · simp [hex comp (by simp) hu]
    rw [processLoop_cons_keep fs und d rest comp h hb]
    refine congrArg (comp :: ·) (ih _ ?_ ?_ ?_)
    · intro k hk
      simp only [List.mem_append, List.mem_singleton, not_or]
      rcases List.map_cons (get_canon fs) comp rest ▸ hnd with hnd'
      refine ⟨hdisj k (by simp [hk]), ?_⟩
      intro hkc
      exact (List.nodup_cons.mp hnd').1 (hkc ▸ hk)
    · exact (List.nodup_cons.mp (List.map_cons (get_canon fs) comp rest ▸ hnd)).2
    · exact fun c hc => hex c (by simp [hc])

lemma processLoop_canon_mem (fs : Fs) :
    ∀ (comps d : List String) (k : String),
      k ∈ (processLoop fs false d comps).map (get_canon fs) ↔
        (k ∈ comps.map (get_canon fs) ∧ k ∉ d) := by
  intro comps
  induction comps with
  | nil => intro d k; simp [processLoop]
  | cons comp rest ih =>
    intro d k
    by_cases h : get_canon fs comp ∈ d
    · rw [processLoop_cons_dup fs false d rest comp h]
      rw [ih d k]
      simp only [List.map_cons, List.mem_cons]
      constructor
      · rintro ⟨hk, hkd⟩; exact ⟨Or.inr hk, hkd⟩
      · rintro ⟨hk | hk, hkd⟩
        · exact absurd (hk ▸ h) hkd
        · exact ⟨hk, hkd⟩
    · rw [processLoop_cons_keep fs false d rest comp h (by simp)]
      simp only [List.map_cons, List.mem_cons]
      rw [ih _ k]
      simp only [List.mem_append, List.mem_singleton, not_or]
      constructor
      · rintro (hk | ⟨hk, hkd, hkc⟩)
        · exact ⟨Or.inl hk, hk ▸ h⟩
        · exact ⟨Or.inr hk, hkd⟩
      · rintro ⟨hk | hk, hkd⟩
        · exact Or.inl hk
        · by_cases hkc : k = get_canon fs comp
          · exact Or.inl hkc
          · exact Or.inr ⟨hk, hkd, hkc⟩

lemma splitChars_ne_nil (sep : Char) (l : List Char) : splitChars sep l ≠ [] := by
  cases l with
  | nil => simp [splitChars]
  | cons c rest =>
    rw [splitChars]
    by_cases h : c = sep
    · simp [h]
    · simp only [h, if_false]
      cases splitChars sep rest <;> simp

lemma splitChars_sep_not_mem (sep : Char) :
    ∀ (l x : List Char), x ∈ splitChars sep l → sep ∉ x := by
  intro l
  induction l with
  | nil =>
    intro x hx
    simp [splitChars] at hx
    simp [hx]
  | cons c rest ih =>
    intro x hx
    rw [splitChars] at hx
    by_cases h : c = sep
    · simp only [h, if_true, List.mem_cons, if_pos rfl] at hx
      rcases hx with hx | hx
      · simp [hx]
      · exact ih x hx
    · simp only [h, if_false] at hx
      rcases hs : splitChars sep rest with _ | ⟨hh, tt⟩
      · exact absurd hs (splitChars_ne_nil sep rest)
      · rw [hs] at hx
        rcases List.mem_cons.mp hx with hx0 | hx1
        · subst hx0
          intro hmem
          rcases List.mem_cons.mp hmem with hc | hc
          · exact h hc.symm
          · exact ih hh (by simp [hs]) hc
        · exact ih x (by simp [hs, hx1])

lemma splitChars_no_sep (sep : Char) :
    ∀ (l : List Char), sep ∉ l → splitChars sep l = [l] := by
  intro l
  induction l with
  | nil => intro _; simp [splitChars]
  | cons c rest ih =>
    intro h
    have hc : ¬(c = sep) := fun hc => h (by simp [hc])
    rw [splitChars]
    simp only [hc, if_false]
    rw [ih (fun hm => h (by simp [hm]))]

lemma splitChars_append_sep (sep : Char) :
    ∀ (x rest : List Char), sep ∉ x →
      splitChars sep (x ++ sep :: rest) = x :: splitChars sep rest := by
  intro x
  induction x with
  | nil => intro rest _; simp [splitChars]
  | cons c x' ih =>
    intro rest h
    have hc : ¬(c = sep) := fun hc => h (by simp [hc])
    rw [List.cons_append, splitChars]
    simp only [hc, if_false]
    rw [ih rest (fun hm => h (by simp [hm]))]

lemma splitChars_joinChars (sep : Char) :
    ∀ (L : List (List Char)), L ≠ [] → (∀ x ∈ L, sep ∉ x) →
      splitChars sep (joinChars sep L) = L := by
  intro L
  induction L with
  | nil => intro h _; exact absurd rfl h
  | cons x L' ih =>
    intro _ hfree
    cases L' with
    | nil =>
      rw [joinChars]
      exact splitChars_no_sep sep x (hfree x (by simp))
    | cons y L'' =>
      rw [joinChars, splitChars_append_sep sep x _ (hfree x (by simp))]
      rw [ih (by simp) (fun z hz => hfree z (by simp [hz]))]

lemma toList_mk (l : List Char) : (String.mk l).toList = l := rfl

lemma mk_toList (s : String) : String.mk s.toList = s := rfl

lemma splitPath_joinPath (L : List String) (hL : L ≠ [])
    (hfree : ∀ c ∈ L, pathsep ∉ c.toList) :
    splitPath (joinPath L) = L := by
  rw [splitPath, joinPath, toList_mk]
  rw [splitChars_joinChars pathsep (L.map String.toList)
    (by simpa using hL)
    (by
      intro x hx
      rcases List.mem_map.mp hx with ⟨c, hc, hcx⟩
      exact hcx ▸ hfree c hc)]
  rw [List.map_map]
  exact List.map_id'' (fun c => mk_toList c) L

lemma splitPath_comp_free (value : String) :
    ∀ c ∈ splitPath value, pathsep ∉ c.toList := by
  intro c hc
  rcases List.mem_map.mp hc with ⟨lc, hlc, hlcc⟩
  rw [← hlcc, toList_mk]
  exact splitChars_sep_not_mem pathsep value.toList lc hlc

lemma tidyOut_empty (fs : Fs) (und : Bool) : tidyOut fs und "" = "" := by
  rw [tidyOut]
  have hsplit : splitPath "" = [""] := by decide
  rw [hsplit]
  cases hb : und && !(existsP fs "")
  · rw [new_comps, processLoop_cons_keep fs und [] [] "" (by simp) hb]
    show joinPath [""] = ""
    decide
  · rw [new_comps, processLoop_cons_drop fs und [] [] "" (by simp) hb]
    show joinPath [] = ""
    decide

lemma dupsAfter_cons_mem (fs : Fs) (d rest : List String) (comp : String)
    (h : get_canon fs comp ∈ d) :
    dupsAfter fs d (comp :: rest) = dupsAfter fs d rest := by
  simp [dupsAfter, is_dup_mem fs d comp h]

lemma dupsAfter_cons_not_mem (fs : Fs) (d rest : List String) (comp : String)
    (h : get_canon fs comp ∉ d) :
    dupsAfter fs d (comp :: rest) = dupsAfter fs (d ++ [get_canon fs comp]) rest := by
  simp [dupsAfter, is_dup_not_mem fs d comp h]

lemma dupsAfter_mem (fs : Fs) :
    ∀ (comps d : List String) (k : String),
      k ∈ dupsAfter fs d comps ↔ (k ∈ d ∨ k ∈ comps.map (get_canon fs)) := by
  intro comps
  induction comps with
  | nil => intro d k; simp [dupsAfter]
  | cons comp rest ih =>
    intro d k
    by_cases h : get_canon fs comp ∈ d
    · rw [dupsAfter_cons_mem fs d rest comp h, ih d k]
      simp only [List.map_cons, List.mem_cons]
      constructor
      · rintro (hk | hk)
        · exact Or.inl hk
        · exact Or.inr (Or.inr hk)
      · rintro (hk | hk | hk)
        · exact Or.inl hk
        · exact Or.inl (hk ▸ h)
        · exact Or.inr hk
    · rw [dupsAfter_cons_not_mem fs d rest comp h, ih _ k]
      simp only [List.mem_append, List.mem_singleton, List.map_cons, List.mem_cons]
      tauto

lemma dupFlagsL_cons_mem (fs : Fs) (d rest : List String) (comp : String)
    (h : get_canon fs comp ∈ d) :
    dupFlagsL fs d (comp :: rest) = true :: dupFlagsL fs d rest := by
  simp [dupFlagsL, is_dup_mem fs d comp h]

lemma dupFlagsL_cons_not_mem (fs : Fs) (d rest : List String) (comp : String)
    (h : get_canon fs comp ∉ d) :
    dupFlagsL fs d (comp :: rest) =
      false :: dupFlagsL fs (d ++ [get_canon fs comp]) rest := by
  simp [dupFlagsL, is_dup_not_mem fs d comp h]

lemma dupFlagsL_getD (fs : Fs) :
    ∀ (comps d : List String) (i : Nat), i < comps.length →
      ((dupFlagsL fs d comps).getD i false = true ↔
        (get_canon fs (comps.getD i "") ∈ d ∨
          ∃ m, m < i ∧ get_canon fs (comps.getD m "") = get_canon fs (comps.getD i ""))) := by
  intro comps
  induction comps with
  | nil => intro d i hi; simp at hi
  | cons comp rest ih =>
    intro d i hi
    cases i with
    | zero =>
      simp only [List.getD_cons_zero]
      by_cases h : get_canon fs comp ∈ d
      · rw [dupFlagsL_cons_mem fs d rest comp h]
        simp [h]
      · rw [dupFlagsL_cons_not_mem fs d rest comp h]
        simp [h]
    | succ n =>
      have hn : n < rest.length := Nat.lt_of_succ_lt_succ hi
      simp only [List.getD_cons_succ]
      by_cases h : get_canon fs comp ∈ d
      · rw [dupFlagsL_cons_mem fs d rest comp h, List.getD_cons_succ, ih d n hn]
        constructor
        · rintro (hk | ⟨m, hm, he⟩)
          · exact Or.inl hk
          · exact Or.inr ⟨m + 1, Nat.succ_lt_succ hm, by simpa using he⟩
        · rintro (hk | ⟨m, hm, he⟩)
          · exact Or.inl hk
          · cases m with
            | zero =>
              simp only [List.getD_cons_zero] at he
              exact Or.inl (he ▸ h)
            | succ m' =>
              exact Or.inr ⟨m', Nat.lt_of_succ_lt_succ hm, by simpa using he⟩
      · rw [dupFlagsL_cons_not_mem fs d rest comp h, List.getD_cons_succ, ih _ n hn]
        simp only [List.mem_append, List.mem_singleton]
        constructor
        · rintro (⟨hk | hk⟩ | ⟨m, hm, he⟩)
          · exact Or.inl hk
          · exact Or.inr ⟨0, Nat.succ_pos n, by simpa using hk.symm⟩
          · exact Or.inr ⟨m + 1, Nat.succ_lt_succ hm, by simpa using he⟩
        · rintro (hk | ⟨m, hm, he⟩)
          · exact Or.inl (Or.inl hk)
          · cases m with
            | zero =>
              simp only [List.getD_cons_zero] at he
              exact Or.inl (Or.inr he.symm)
            | succ m' =>
              exact Or.inr ⟨m', Nat.lt_of_succ_lt_succ hm, by simpa using he⟩

lemma classifyL_cons (fs : Fs) (d rest : List String) (comp : String) :
    classifyL fs d (comp :: rest) =
      ((is_dup fs d comp).1, existsP fs comp) :: classifyL fs (is_dup fs d comp).2 rest := rfl

lemma reportEntries_numk (fs : Fs) (opts : Opts) (col : Colors) :
    ∀ (comps : List String) (i : Nat) (d : List String) (c : Counts),
      ((reportEntries fs opts col i d c comps).2).numk =
        c.numk + List.countP (fun p => !p.1 || p.2) (classifyL fs d comps) := by
  intro comps
  induction comps with
  | nil => intro i d c; simp [reportEntries, classifyL]
  | cons comp rest ih =>
    intro i d c
    by_cases hd : get_canon fs comp ∈ d
    · by_cases he : existsP fs comp = true
      · simp only [reportEntries, classifyL_cons, is_dup_mem fs d comp hd, he,
          if_true, Bool.not_true, Bool.false_or, List.countP_cons, ih]
        try simp
        all_goals omega
      · have he' : existsP fs comp = false := by
          cases hx : existsP fs comp
          · rfl
          · exact absurd hx he
        simp only [reportEntries, classifyL_cons, is_dup_mem fs d comp hd, he',
          List.countP_cons, ih]
        try simp
        all_goals omega
    · by_cases he : existsP fs comp = true
      · simp only [reportEntries, classifyL_cons, is_dup_not_mem fs d comp hd, he,
          List.countP_cons, ih]
        try simp
        all_goals omega
      · have he' : existsP fs comp = false := by
          cases hx : existsP fs comp
          · rfl
          · exact absurd hx he
        simp only [reportEntries, classifyL_cons, is_dup_not_mem fs d comp hd, he',
          List.countP_cons, ih]
        try simp
        all_goals omega

lemma splitChars_append_last_sep (sep : Char) :
    ∀ (l : List Char), splitChars sep (l ++ [sep]) = splitChars sep l ++ [[]] := by
  intro l
  induction l with
  | nil => simp [splitChars]
  | cons c l' ih =>
    rw [List.cons_append, splitChars, splitChars]
    by_cases hc : c = sep
    · simp [hc, ih]
    · simp only [hc, if_false]
      rw [ih]
      rcases hs : splitChars sep l' with _ | ⟨hh, tt⟩
      · exact absurd hs (splitChars_ne_nil sep l')
      · simp

lemma normComps_append_empty (ns : Nat) :
    ∀ (xs : List (List Char)) (acc : List (List Char)),
      normComps ns acc (xs ++ [[]]) = normComps ns acc xs := by
  intro xs
  induction xs with
  | nil => intro acc; simp [normComps]
  | cons comp rest ih =>
    intro acc
    rw [List.cons_append, normComps, normComps]
    by_cases h1 : comp = [] ∨ comp = ['.']
    · simp only [h1, if_true]
      exact ih acc
    · simp only [h1, if_false]
      by_cases h2 : comp ≠ ['.', '.'] ∨ (ns = 0 ∧ acc = []) ∨
          (acc ≠ [] ∧ acc.getLast? = some ['.', '.'])
      · simp only [h2, if_true]
        exact ih (acc ++ [comp])
      · simp only [h2, if_false]
        exact ih acc.dropLast

lemma initialSlashes_append_slash (l : List Char) (h0 : l ≠ [])
    (h1 : l.getLast? ≠ some '/') :
    initialSlashes (l ++ ['/']) = initialSlashes l := by
  match l with
  | [] => exact absurd rfl h0
  | [c1] =>
    have hc1 : ¬(c1 = '/') := by
      intro hc
      exact h1 (by simp [hc, List.getLast?])
    simp [initialSlashes, hc1]
  | [c1, c2] =>
    have hc2 : ¬(c2 = '/') := by
      intro hc
      exact h1 (by simp [hc, List.getLast?])
    simp [initialSlashes, hc2]
  | c1 :: c2 :: c3 :: rest =>
    show initialSlashes (c1 :: c2 :: c3 :: (rest ++ ['/'])) =
      initialSlashes (c1 :: c2 :: c3 :: rest)
    rfl

lemma normpathL_append_slash (l : List Char) (h0 : l ≠ [])
    (h1 : l.getLast? ≠ some '/') :
    normpathL (l ++ ['/']) = normpathL l := by
  rw [normpathL, normpathL]
  have hne : ¬(l ++ ['/'] = []) := by simp
  simp only [hne, h0, if_false]
  rw [initialSlashes_append_slash l h0 h1, splitChars_append_last_sep '/' l,
    normComps_append_empty]

lemma joinL_nil_of_getLast_none (a : List Char) (h : a.getLast? = none) :
    joinL a [] = [] := by
  simp [joinL, h]

lemma joinL_nil_of_getLast_slash (a : List Char) (h : a.getLast? = some '/') :
    joinL a [] = a := by
  simp [joinL, h]

lemma joinL_nil_of_getLast_other (a : List Char) (c : Char) (h : a.getLast? = some c)
    (hc : ¬(c = '/')) : joinL a [] = a ++ ['/'] := by
  simp [joinL, h, hc]

lemma get_canon_empty (fs : Fs) (h : normpath fs.cwd = fs.cwd) :
    get_canon fs "" = fs.cwd := by
  have hgc : get_canon fs "" = String.mk (normpathL (joinL fs.cwd.toList [])) := rfl
  rw [hgc]
  rcases hg : fs.cwd.toList.getLast? with _ | c
  · have hnil : fs.cwd.toList = [] := List.getLast?_eq_none_iff.mp hg
    have hcwd : fs.cwd = "" := by
      have := mk_toList fs.cwd
      rw [hnil] at this
      exact this.symm
    rw [hcwd] at h
    have hdot : normpath "" = "." := by decide
    rw [hdot] at h
    exact absurd h (by decide)
  · by_cases hc : c = '/'
    · rw [joinL_nil_of_getLast_slash fs.cwd.toList (hc ▸ hg)]
      exact h
    · rw [joinL_nil_of_getLast_other fs.cwd.toList c hg hc]
      have h0 : fs.cwd.toList ≠ [] := by
        intro hnil
        rw [hnil] at hg
        simp [List.getLast?] at hg
      have h1 : fs.cwd.toList.getLast? ≠ some '/' := by
        rw [hg]
        intro hx
        exact hc (by simpa using hx)
      rw [normpathL_append_slash fs.cwd.toList h0 h1]
      exact h

/-- C1: in report mode, an entry contributes exactly one to `numKept`
precisely when it is not a duplicate at its visit time or its canonical
key exists on disk, and never contributes more than one even when both
conditions hold. -/
theorem C1_report_numKept (fs : Fs) (opts : Opts) (comps : List String) :
    (reportCountsOf fs opts comps).numk =
      List.countP (fun p => !p.1 || p.2) (classifyL fs [] comps) := by
  rw [reportCountsOf, reportEntries_numk fs opts (mkColors opts)]
  simp

/-- C2: evaluation of the report counters at the failing input. On the
list `/a:/a` with `/a` missing, the code produces `numFiltered = 3` when
the exclude-undefined option is active (the duplicate-and-missing second
entry is counted under both the duplicate increment and the undefined
increment), while the claim demands 2; without the option the code gives
the claimed value 1. -/
theorem C2_numFiltered_eval :
    reportCountsOf fsNone optsLu ["/a", "/a"] = ⟨2, 1, 3, 1⟩ ∧
    reportCountsOf fsNone optsL ["/a", "/a"] = ⟨2, 1, 1, 1⟩ := by
  decide

/-- C3 counterexample: in the list `/x:/x:/x` the components at
positions 1 and 2 (0-based) have equal canonical keys and position 1
comes first, yet the duplicate check classifies the position-1 component
as a duplicate too, refuting the claim that for any two equal-key
components `a` before `b` the component `a` is not classified duplicate. -/
theorem C3_counterexample :
    get_canon fsNone (["/x", "/x", "/x"].getD 1 "") =
      get_canon fsNone (["/x", "/x", "/x"].getD 2 "") ∧
    (dupFlagsL fsNone [] ["/x", "/x", "/x"]).getD 2 false = true ∧
    ¬((dupFlagsL fsNone [] ["/x", "/x", "/x"]).getD 1 false = false) := by
  decide

/-- C3 (amended): for two components at positions `i < j` with equal
canonical keys, the component at `j` is classified duplicate, and the one
at `i` is not classified duplicate provided no component before `i`
shares its canonical key (first occurrence wins); the verdict at each
position consults only the earlier entries. -/
theorem C3_first_occurrence_wins (fs : Fs) (comps : List String) (i j : Nat)
    (hj : j < comps.length) (hij : i < j)
    (hc : get_canon fs (comps.getD i "") = get_canon fs (comps.getD j "")) :
    (dupFlagsL fs [] comps).getD j false = true ∧
    ((∀ m, m < i → get_canon fs (comps.getD m "") ≠ get_canon fs (comps.getD i "")) →
      (dupFlagsL fs [] comps).getD i false = false) := by
  constructor
  · rw [dupFlagsL_getD fs comps [] j hj]
    exact Or.inr ⟨i, hij, hc⟩
  · intro hfirst
    have hi : i < comps.length := lt_trans hij hj
    cases hb : (dupFlagsL fs [] comps).getD i false
    · rfl
    · exfalso
      rcases (dupFlagsL_getD fs comps [] i hi).mp hb with hmem | ⟨m, hm, he⟩
      · simp at hmem
      · exact hfirst m hm he

/-- Witness for C3 (amended) at the concrete list `/x:/x`. -/
theorem C3_first_occurrence_wins_witness :
    (dupFlagsL fsNone [] ["/x", "/x"]).getD 1 false = true ∧
    (dupFlagsL fsNone [] ["/x", "/x"]).getD 0 false = false := by
  have h := C3_first_occurrence_wins fsNone ["/x", "/x"] 0 1 (by decide) (by decide) (by decide)
  exact ⟨h.1, h.2 (fun m hm => absurd hm (Nat.not_lt_zero m))⟩

/-- C4: in default shell-output mode the printed string is the input
sequence filtered by the spec-side rule (duplicates by canonical key
against the full earlier prefix removed; non-existing components removed
exactly when the undefined flag is set), joined with the path-list
separator; the surviving components are a subsequence of the input in
original order and literal text. -/
theorem C4_shell_output (fs : Fs) (opts : Opts) (env : String) (comps : List String)
    (hlr : opts.list_report = false) (hl : opts.list = false) :
    renderComps fs opts env comps =
      Outcome.out (joinPath (specFilter fs opts.undefined [] comps) ++ "\n") ∧
    List.Sublist (specFilter fs opts.undefined [] comps) comps := by
  constructor
  · rw [renderComps]
    simp only [hlr, hl, Bool.false_eq_true, if_false]
    rw [new_comps_eq_specFilter]
  · rw [← new_comps_eq_specFilter]
    exact processLoop_sublist fs opts.undefined comps []

/-- Witness for C4 at the spec's scenario list. -/
theorem C4_shell_output_witness :
    renderComps fsUsrBin optsDefault "PATH" ["/usr/bin", "/usr/bin", "/nonexistent"] =
      Outcome.out
        (joinPath (specFilter fsUsrBin false [] ["/usr/bin", "/usr/bin", "/nonexistent"]) ++ "\n") ∧
    List.Sublist (specFilter fsUsrBin false [] ["/usr/bin", "/usr/bin", "/nonexistent"])
      ["/usr/bin", "/usr/bin", "/nonexistent"] :=
  C4_shell_output fsUsrBin optsDefault "PATH" ["/usr/bin", "/usr/bin", "/nonexistent"] rfl rfl

/-- C5: the default shell-output pipeline is idempotent: re-running it on
its own output (re-split on the separator, same state and flags) returns
the identical string, and the canonical keys of the surviving components
are pairwise distinct. -/
theorem C5_idempotent (fs : Fs) (und : Bool) (value : String) :
    tidyOut fs und (tidyOut fs und value) = tidyOut fs und value ∧
    (List.map (get_canon fs) (new_comps fs und (splitPath value))).Nodup := by
  refine ⟨?_, (processLoop_canon_nodup fs und (splitPath value) []).2⟩
  by_cases hL : new_comps fs und (splitPath value) = []
  · have hv : tidyOut fs und value = "" := by
      rw [tidyOut, hL]
      decide
    rw [hv, tidyOut_empty]
  · have hfree : ∀ c ∈ new_comps fs und (splitPath value), pathsep ∉ c.toList :=
      fun c hc =>
        splitPath_comp_free value c ((processLoop_sublist fs und (splitPath value) []).subset hc)
    have hnd := (processLoop_canon_nodup fs und (splitPath value) []).2
    have hex : ∀ c ∈ new_comps fs und (splitPath value), und = true → existsP fs c = true :=
      fun c hc hu => processLoop_kept_exists fs und (splitPath value) [] c hc hu
    simp only [tidyOut]
    rw [splitPath_joinPath _ hL hfree]
    exact congrArg joinPath
      (processLoop_id fs und (new_comps fs und (splitPath value)) [] (by simp) hnd hex)

/-- C6 counterexample: a defined-but-empty variable value splits into one
empty component, not into zero components as the claim states. -/
theorem C6_counterexample :
    splitPath "" = [""] ∧ ¬((splitPath "").length = 0) := by
  decide

/-- C6 (amended): splitting an empty-string value yields a sequence
containing exactly one empty component, and an empty component
canonicalizes to the current working directory (for any working
directory that is already in normalized form, as a real `getcwd` value
is). -/
theorem C6_empty_value (fs : Fs) (h : normpath fs.cwd = fs.cwd) :
    splitPath "" = [""] ∧ get_canon fs "" = fs.cwd :=
  ⟨by decide, get_canon_empty fs h⟩

/-- Witness for C6 (amended) at the sample state with cwd `/w`. -/
theorem C6_empty_value_witness :
    splitPath "" = [""] ∧ get_canon fsNone "" = "/w" :=
  C6_empty_value fsNone (by decide)

/-- C7: a variable missing from the environment without silent mode
makes the whole invocation abort: the formatted error message naming the
variable goes to standard error, nothing is written to standard output
(neither for that variable nor for any later name), and the process
exits with code 1. -/
theorem C7_missing_fatal (fs : Fs) (opts : Opts) (env : String → Option String)
    (name : String) (rest : List String)
    (hs : opts.silent = false) (he : env name = none) :
    runMain fs opts env (name :: rest) =
      ⟨"", some (errText 165
        ("environment variable not defined: " ++ name ++ ", use -s to continue")), 1⟩ := by
  rw [runMain, he, processVar]
  simp [hs]

/-- Witness for C7 with two variable names, both undefined. -/
theorem C7_missing_fatal_witness :
    runMain fsNone optsDefault (fun _ => none) ["PATH", "HOME"] =
      ⟨"", some (errText 165
        ("environment variable not defined: " ++ "PATH" ++ ", use -s to continue")), 1⟩ :=
  C7_missing_fatal fsNone optsDefault (fun _ => none) "PATH" ["HOME"] rfl rfl

/-- C8: a variable missing from the environment with silent mode set is
treated as an empty component list: report mode prints the name header
followed directly by the legend and summary with all four counters zero,
human-list mode prints nothing, and default mode prints a single empty
line. -/
theorem C8_missing_silent (fs : Fs) (opts : Opts) (name : String)
    (hs : opts.silent = true) :
    (opts.list_report = true →
      processVar fs opts name none =
        Outcome.out ("Name: " ++ name ++ "\n" ++ summaryText (mkColors opts) ⟨0, 0, 0, 0⟩)) ∧
    (opts.list_report = false → opts.list = true →
      processVar fs opts name none = Outcome.out "") ∧
    (opts.list_report = false → opts.list = false →
      processVar fs opts name none = Outcome.out "\n") := by
  have hpv : processVar fs opts name none = renderComps fs opts name [] := by
    rw [processVar]
    simp [hs]
  refine ⟨fun hlr => ?_, fun hlr hl => ?_, fun hlr hl => ?_⟩
  · rw [hpv, renderComps]
    simp only [hlr, if_true]
    rw [reportOut]
    simp only [reportEntries]
    rw [String.append_empty]
  · rw [hpv, renderComps]
    simp only [hlr, hl, Bool.false_eq_true, if_false, if_true]
    rfl
  · rw [hpv, renderComps]
    simp only [hlr, hl, Bool.false_eq_true, if_false]
    have hnc : new_comps fs opts.undefined [] = [] := rfl
    rw [hnc]
    have hjp : joinPath [] = "" := by decide
    rw [hjp, String.empty_append]

/-- Witness for C8 in silent report mode on the name `PATH`. -/
theorem C8_missing_silent_witness :
    processVar fsNone optsLs "PATH" none =
      Outcome.out ("Name: " ++ "PATH" ++ "\n" ++ summaryText (mkColors optsLs) ⟨0, 0, 0, 0⟩) :=
  (C8_missing_silent fsNone optsLs "PATH" rfl).1 rfl

/-- C9: with the undefined-exclusion flag off, the canonical keys of the
surviving components are exactly the canonical keys of the input list:
deduplication drops later repetitions of a key but never loses a key. -/
theorem C9_canon_keys_preserved (fs : Fs) (comps : List String) (k : String) :
    k ∈ (new_comps fs false comps).map (get_canon fs) ↔
      k ∈ comps.map (get_canon fs) := by
  rw [new_comps, processLoop_canon_mem fs comps [] k]
  simp

/-- C10: the duplicate check's seen-set invariant: `is_dup` returns true
exactly when the canonical key was already present, the key is present
afterwards in every case, no key is ever removed, and after a full
traversal the seen set holds exactly the canonical keys of the visited
components. -/
theorem C10_seen_set_invariant (fs : Fs) (d : List String) (c : String)
    (comps : List String) :
    ((is_dup fs d c).1 = true ↔ get_canon fs c ∈ d) ∧
    get_canon fs c ∈ (is_dup fs d c).2 ∧
    d ⊆ (is_dup fs d c).2 ∧
    (∀ k, k ∈ dupsAfter fs [] comps ↔ k ∈ comps.map (get_canon fs)) := by
  refine ⟨?_, ?_, ?_, fun k => ?_⟩
  · by_cases h : get_canon fs c ∈ d
    · rw [is_dup_mem fs d c h]
      simpa using h
    · rw [is_dup_not_mem fs d c h]
      simpa using h
  · by_cases h : get_canon fs c ∈ d
    · rw [is_dup_mem fs d c h]
      exact h
    · rw [is_dup_not_mem fs d c h]
      simp
  · by_cases h : get_canon fs c ∈ d
    · rw [is_dup_mem fs d c h]
      exact fun k hk => hk
    · rw [is_dup_not_mem fs d c h]
      exact List.subset_append_left d _
  · rw [dupsAfter_mem fs comps [] k]
    simp

end TidyPath
